/-
Verification of the revision-sampling and build-benchmark tool `build_bench.py`.

The Python source is shallowly embedded below:
  * the daily revision sampler `daily_to_present` (its sampling loop) becomes
    `sampleLoopInst` / `daily_samples_inst` / `daily_samples`;
  * the file perturbation `replace_once` becomes `replace_once` over a
    line-list representation of the file (each line a `List Char`);
  * the CLI dispatch in `__main__` becomes `cli_dispatch`;
  * the single-revision flow `single_commit` becomes the effect trace
    `single_commit_ops`;
  * the CSV writing of `daily_to_present` becomes `bench_loop` /
    `daily_to_present_file`, with Python's `%d` float truncation as `qTrunc`
    and `datetime.utcfromtimestamp(..).strftime(..)` as `formatDateUTC`.

Python integers are `Int`; Python `%` and `//` on a positive modulus are
`Int.emod` / `Int.ediv` (both floor-style for positive divisors, like Python).
External collaborators (git, cargo, InfluxDB) are abstract parameters; a
raised Python exception is `Option.none` / an aborted effect trace.
-/
import Mathlib

/-! ## The revision sampler (`daily_to_present`, lines 141-160) -/

/-- interval_in_seconds = 1 * 24 * 60 * 60 in `daily_to_present`. -/
def interval_in_seconds : Int := 1 * 24 * 60 * 60

/-- Weekday of a Unix timestamp in UTC, Monday = 0 .. Sunday = 6, exactly as
Python's `datetime.utcfromtimestamp(t).weekday()`: 1970-01-01 (day 0) was a
Thursday (= 3), and each 86400-second day advances the weekday by one.
On `Int`, `/` and `%` are euclidean division and remainder, which agree with
Python's floor division and nonnegative remainder for a positive divisor. -/
def weekdayOf (t : Int) : Int := (t / 86400 + 3) % 7

/-- Fuel-indexed unfolding of the inner `while` loop
`while datetime.utcfromtimestamp(threshold_time).weekday() > 4: threshold_time -= interval_in_seconds`.
Seven units of fuel always suffice (the weekday cycles with period 7 and
Friday is reached after at most two backward steps), see `weekdayOf_skipWeekend_le`. -/
def skipWeekendAux : Nat → Int → Int
  | 0, t => t
  | n + 1, t => if 4 < weekdayOf t then skipWeekendAux n (t - interval_in_seconds) else t

/-- The weekend-skipping `while` loop of `daily_to_present`. -/
def skipWeekend (t : Int) : Int := skipWeekendAux 7 t

/-- The sampling `while last_time > start_time` loop of `daily_to_present`
(lines 150-158), instrumented with the threshold each sample was emitted for:
the result is the Python list `to_benchmark`, in emission order
(most recent first), each entry `(threshold_time, last_time, last_hash)`
recording the threshold current at its emission.  The revision stream is a
finite list; exhausting it while `last_time > start_time` models the
exception the real generator raises, hence `none`. -/
def sampleLoopInst (start : Int) : Int → String → Int → List (Int × String) →
    Option (List (Int × Int × String))
  | lastT, _lastH, _threshold, [] => if lastT ≤ start then some [] else none
  | lastT, lastH, threshold, (nextT, nextH) :: rest' =>
    if lastT ≤ start then some []
    else if nextT < threshold then
      (sampleLoopInst start nextT nextH
          (skipWeekend (threshold - interval_in_seconds)) rest').map
        (fun l => (threshold, lastT, lastH) :: l)
    else
      sampleLoopInst start nextT nextH threshold rest'

/-- The sampler of `daily_to_present`: the history is the reverse-chronological
revision stream (`commits()`), the first entry playing the role of the first
`next(commit_generator)`; the initial threshold is
`last_time - (last_time % interval_in_seconds)`.  Instrumented output. -/
def daily_samples_inst (start : Int) : List (Int × String) →
    Option (List (Int × Int × String))
  | [] => none
  | (t0, h0) :: rest =>
      sampleLoopInst start t0 h0 (t0 - t0 % interval_in_seconds) rest

/-- The Python `to_benchmark` list itself ((timestamp, hash) pairs, most recent
first): the instrumented sampler with the ghost threshold component dropped. -/
def daily_samples (start : Int) (hist : List (Int × String)) :
    Option (List (Int × String)) :=
  (daily_samples_inst start hist).map (List.map (fun p => (p.2.1, p.2.2)))

/-- Timestamps of a revision history, in stream order. -/
def histTimes (hist : List (Int × String)) : List Int := hist.map (fun e => e.1)

/-! ### Basic facts about the weekend skip -/

theorem weekdayOf_lb (t : Int) : 0 ≤ weekdayOf t := by
  unfold weekdayOf; omega

theorem weekdayOf_ub (t : Int) : weekdayOf t < 7 := by
  unfold weekdayOf; omega

theorem weekdayOf_sub_day (t : Int) :
    weekdayOf (t - interval_in_seconds) = (weekdayOf t + 6) % 7 := by
  unfold weekdayOf interval_in_seconds; omega

theorem skipWeekendAux_le : ∀ (n : Nat) (t : Int), skipWeekendAux n t ≤ t := by
  intro n
  induction n with
  | zero => intro t; simp [skipWeekendAux]
  | succ n ih =>
    intro t
    unfold skipWeekendAux
    split
    · calc skipWeekendAux n (t - interval_in_seconds) ≤ t - interval_in_seconds := ih _
        _ ≤ t := by unfold interval_in_seconds; omega
    · exact le_refl t

theorem skipWeekend_le (t : Int) : skipWeekend t ≤ t := skipWeekendAux_le 7 t

theorem skipWeekendAux_spec :
    ∀ (n : Nat) (t : Int), weekdayOf t < 5 + n → weekdayOf (skipWeekendAux n t) ≤ 4 := by
  intro n
  induction n with
  | zero => intro t h; simpa [skipWeekendAux] using by omega
  | succ n ih =>
    intro t h
    unfold skipWeekendAux
    split
    · apply ih
      have h0 := weekdayOf_lb t
      have h7 := weekdayOf_ub t
      have hstep := weekdayOf_sub_day t
      omega
    · omega

/-- After the weekend-skipping loop the weekday is Monday..Friday. -/
theorem weekdayOf_skipWeekend_le (t : Int) : weekdayOf (skipWeekend t) ≤ 4 := by
  have h7 := weekdayOf_ub t
  exact skipWeekendAux_spec 7 t (by omega)

theorem interval_pos : 0 < interval_in_seconds := by norm_num [interval_in_seconds]

/-! ### Invariants of the sampling loop -/

theorem sampleLoop_thresholds (start : Int) :
    ∀ (rest : List (Int × String)) (lastT : Int) (lastH : String) (th : Int)
      (out : List (Int × Int × String)),
      sampleLoopInst start lastT lastH th rest = some out →
      (∀ p ∈ out, p.1 ≤ th) ∧
      out.Pairwise (fun p q => q.1 < p.1) ∧
      (∀ p ∈ out, p.1 = th ∨ weekdayOf p.1 ≤ 4) ∧
      (∀ p l', out = p :: l' → p.1 = th) := by
  intro rest
  induction rest with
  | nil =>
    intro lastT lastH th out h
    simp only [sampleLoopInst] at h
    split at h
    · cases h
      refine ⟨by simp, by simp, by simp, ?_⟩
      intro p l' hpl; cases hpl
    · cases h
  | cons e rest' ih =>
    obtain ⟨nextT, nextH⟩ := e
    intro lastT lastH th out h
    simp only [sampleLoopInst] at h
    split at h
    · cases h
      refine ⟨by simp, by simp, by simp, ?_⟩
      intro p l' hpl; cases hpl
    · split at h
      · rename_i hstop hemit
        rcases Option.map_eq_some'.mp h with ⟨out', hout', rfl⟩
        obtain ⟨ih1, ih2, ih3, _⟩ := ih nextT nextH _ out' hout'
        have hskip : skipWeekend (th - interval_in_seconds) ≤ th - interval_in_seconds :=
          skipWeekend_le _
        have hlt : skipWeekend (th - interval_in_seconds) < th := by
          have := interval_pos; omega
        refine ⟨?_, ?_, ?_, ?_⟩
        · intro p hp
          rcases List.mem_cons.mp hp with rfl | hp'
          · exact le_refl th
          · have := ih1 p hp'; omega
        · rw [List.pairwise_cons]
          exact ⟨fun q hq => by have := ih1 q hq; omega, ih2⟩
        · intro p hp
          rcases List.mem_cons.mp hp with rfl | hp'
          · exact Or.inl rfl
          · rcases ih3 p hp' with heq | hle
            · exact Or.inr (heq ▸ weekdayOf_skipWeekend_le _)
            · exact Or.inr hle
        · intro p l' hpl
          cases hpl; rfl
      · obtain ⟨ih1, ih2, ih3, ih4⟩ := ih nextT nextH th out h
        exact ⟨ih1, ih2, ih3, ih4⟩

theorem sampleLoop_times (start : Int) :
    ∀ (rest : List (Int × String)) (lastT : Int) (lastH : String) (th : Int)
      (out : List (Int × Int × String)),
      List.Chain' (fun a b => b < a) (lastT :: histTimes rest) →
      sampleLoopInst start lastT lastH th rest = some out →
      (∀ p ∈ out, p.2.1 ≤ lastT) ∧
      out.Pairwise (fun p q => q.2.1 < p.2.1) ∧
      List.Chain' (fun p q => q.2.1 < p.1) out := by
  intro rest
  induction rest with
  | nil =>
    intro lastT lastH th out _ h
    simp only [sampleLoopInst] at h
    split at h
    · cases h; exact ⟨by simp, by simp, by simp⟩
    · cases h
  | cons e rest' ih =>
    obtain ⟨nextT, nextH⟩ := e
    intro lastT lastH th out hchain h
    have hlast : nextT < lastT := by
      simp only [histTimes, List.map_cons] at hchain
      exact (List.chain'_cons.mp hchain).1
    have hchain' : List.Chain' (fun a b => b < a) (nextT :: histTimes rest') := by
      simp only [histTimes, List.map_cons] at hchain
      exact (List.chain'_cons.mp hchain).2
    simp only [sampleLoopInst] at h
    split at h
    · cases h; exact ⟨by simp, by simp, by simp⟩
    · split at h
      · rename_i hstop hemit
        rcases Option.map_eq_some'.mp h with ⟨out', hout', rfl⟩
        obtain ⟨ih1, ih2, ih3⟩ := ih nextT nextH _ out' hchain' hout'
        refine ⟨?_, ?_, ?_⟩
        · intro p hp
          rcases List.mem_cons.mp hp with rfl | hp'
          · exact le_refl lastT
          · have := ih1 p hp'; omega
        · rw [List.pairwise_cons]
          exact ⟨fun q hq => by have := ih1 q hq; simp only; omega, ih2⟩
        · rw [List.chain'_cons']
          refine ⟨?_, ih3⟩
          intro q hq
          have hqmem : q ∈ out' := List.mem_of_mem_head? hq
          have := ih1 q hqmem
          simp only
          omega
      · rename_i hstop hemit
        obtain ⟨ih1, ih2, ih3⟩ := ih nextT nextH th out hchain' h
        exact ⟨fun p hp => by have := ih1 p hp; omega, ih2, ih3⟩

theorem sampleLoop_first_ge (start : Int) :
    ∀ (rest : List (Int × String)) (lastT : Int) (lastH : String) (th : Int)
      (out : List (Int × Int × String)),
      th ≤ lastT →
      sampleLoopInst start lastT lastH th rest = some out →
      ∀ p l', out = p :: l' → p.1 ≤ p.2.1 := by
  intro rest
  induction rest with
  | nil =>
    intro lastT lastH th out _ h p l' hpl
    simp only [sampleLoopInst] at h
    split at h
    · cases h; cases hpl
    · cases h
  | cons e rest' ih =>
    obtain ⟨nextT, nextH⟩ := e
    intro lastT lastH th out hge h p l' hpl
    simp only [sampleLoopInst] at h
    split at h
    · cases h; cases hpl
    · split at h
      · rcases Option.map_eq_some'.mp h with ⟨out', hout', rfl⟩
        cases hpl
        simpa using hge
      · rename_i hstop hemit
        exact ih nextT nextH th out (by omega) h p l' hpl

theorem sampleLoop_first_th (start : Int) :
    ∀ (rest : List (Int × String)) (lastT : Int) (lastH : String) (th : Int)
      (out : List (Int × Int × String)),
      sampleLoopInst start lastT lastH th rest = some out →
      ∀ p l', out = p :: l' → p.1 = th := fun rest lastT lastH th out h =>
  (sampleLoop_thresholds start rest lastT lastH th out h).2.2.2

theorem sampleLoop_total (start : Int) :
    ∀ (rest : List (Int × String)) (lastT : Int) (lastH : String) (th : Int),
      (∃ t ∈ lastT :: histTimes rest, t ≤ start) →
      ∃ out, sampleLoopInst start lastT lastH th rest = some out := by
  intro rest
  induction rest with
  | nil =>
    intro lastT lastH th hex
    rcases hex with ⟨t, ht, hle⟩
    simp only [histTimes, List.map_nil, List.mem_singleton] at ht
    subst ht
    exact ⟨[], by simp [sampleLoopInst, hle]⟩
  | cons e rest' ih =>
    obtain ⟨nextT, nextH⟩ := e
    intro lastT lastH th hex
    by_cases hstop : lastT ≤ start
    · exact ⟨[], by simp [sampleLoopInst, hstop]⟩
    · have hex' : ∃ t ∈ nextT :: histTimes rest', t ≤ start := by
        rcases hex with ⟨t, ht, hle⟩
        simp only [histTimes, List.map_cons, List.mem_cons] at ht
        rcases ht with rfl | ht'
        · omega
        · exact ⟨t, by simpa [histTimes] using ht', hle⟩
      by_cases hemit : nextT < th
      · rcases ih nextT nextH (skipWeekend (th - interval_in_seconds)) hex' with ⟨out', hout'⟩
        exact ⟨(th, lastT, lastH) :: out', by simp [sampleLoopInst, hstop, hemit, hout']⟩
      · rcases ih nextT nextH th hex' with ⟨out', hout'⟩
        exact ⟨out', by simp [sampleLoopInst, hstop, hemit, hout']⟩

theorem sampleLoop_gt_start (start : Int) :
    ∀ (rest : List (Int × String)) (lastT : Int) (lastH : String) (th : Int)
      (out : List (Int × Int × String)),
      (∀ t ∈ histTimes rest, start ≤ t) →
      sampleLoopInst start lastT lastH th rest = some out →
      ∀ p ∈ out, start < p.1 := by
  intro rest
  induction rest with
  | nil =>
    intro lastT lastH th out _ h
    simp only [sampleLoopInst] at h
    split at h
    · cases h; simp
    · cases h
  | cons e rest' ih =>
    obtain ⟨nextT, nextH⟩ := e
    intro lastT lastH th out hge h
    have hnext : start ≤ nextT := hge nextT (by simp [histTimes])
    have hge' : ∀ t ∈ histTimes rest', start ≤ t := fun t ht =>
      hge t (by simp [histTimes] at ht ⊢; exact Or.inr ht)
    simp only [sampleLoopInst] at h
    split at h
    · cases h; simp
    · split at h
      · rename_i hstop hemit
        rcases Option.map_eq_some'.mp h with ⟨out', hout', rfl⟩
        intro p hp
        rcases List.mem_cons.mp hp with rfl | hp'
        · simp only; omega
        · exact ih nextT nextH _ out' hge' hout' p hp'
      · exact ih nextT nextH th out hge' h

theorem sampleLoop_suffix (start : Int) :
    ∀ (rest₁ rest₂ : List (Int × String)) (lastT : Int) (lastH : String) (th : Int),
      (∃ t ∈ lastT :: histTimes rest₁, t ≤ start) →
      sampleLoopInst start lastT lastH th (rest₁ ++ rest₂) =
        sampleLoopInst start lastT lastH th rest₁ := by
  intro rest₁
  induction rest₁ with
  | nil =>
    intro rest₂ lastT lastH th hex
    rcases hex with ⟨t, ht, hle⟩
    simp only [histTimes, List.map_nil, List.mem_singleton] at ht
    subst ht
    cases rest₂ with
    | nil => rfl
    | cons e r => simp [sampleLoopInst, hle]
  | cons e rest' ih =>
    obtain ⟨nextT, nextH⟩ := e
    intro rest₂ lastT lastH th hex
    by_cases hstop : lastT ≤ start
    · simp [sampleLoopInst, hstop]
    · have hex' : ∃ t ∈ nextT :: histTimes rest', t ≤ start := by
        rcases hex with ⟨t, ht, hle⟩
        simp only [histTimes, List.map_cons, List.mem_cons] at ht
        rcases ht with rfl | ht'
        · omega
        · exact ⟨t, by simpa [histTimes] using ht', hle⟩
      by_cases hemit : nextT < th
      · simp [sampleLoopInst, hstop, hemit, ih rest₂ nextT nextH _ hex']
      · simp [sampleLoopInst, hstop, hemit, ih rest₂ nextT nextH th hex']

theorem chain_ge_last :
    ∀ (l : List Int) (a : Int),
      List.Chain' (fun x y => y < x) l → l.getLast? = some a → ∀ x ∈ l, a ≤ x := by
  intro l
  induction l with
  | nil => intro a _ h; cases h
  | cons x l' ih =>
    intro a hchain hlast y hy
    cases l' with
    | nil =>
      simp only [List.getLast?_singleton, Option.some.injEq] at hlast
      simp only [List.mem_singleton] at hy
      omega
    | cons z l'' =>
      have h1 : z < x := (List.chain'_cons.mp hchain).1
      have h2 : List.Chain' (fun x y => y < x) (z :: l'') := (List.chain'_cons.mp hchain).2
      have hlast' : (z :: l'').getLast? = some a := by
        rwa [List.getLast?_cons_cons] at hlast
      have hall := ih a h2 hlast'
      rcases List.mem_cons.mp hy with rfl | hy'
      · have := hall z (by simp); omega
      · exact hall y hy'

/-! ## The file perturbation (`replace_once`, lines 97-108)

A file is a list of lines, each line a `List Char` (Python's `for line in f`
iterates over lines with their terminators; the terminator characters are just
characters here).  `containsSub pat l` is Python's `pat in l`, and
`replaceAll pat rep l` is Python's `l.replace(pat, rep)`: scan left to right,
replace each non-overlapping occurrence, resume after the replacement.
(Python's `replace` with an empty pattern inserts `rep` between characters;
the embedding makes the empty pattern a no-op instead, and every statement
about a marker assumes the marker nonempty, as both markers in the source,
`unreachable!` and `panic!`, are.) -/

def containsSub (pat : List Char) : List Char → Bool
  | [] => pat.isEmpty
  | c :: t => pat.isPrefixOf (c :: t) || containsSub pat t

def replaceAll (pat rep : List Char) (s : List Char) : List Char :=
  match s with
  | [] => []
  | c :: t =>
    if h : pat ≠ [] ∧ pat.isPrefixOf (c :: t) then
      rep ++ replaceAll pat rep (List.drop pat.length (c :: t))
    else
      c :: replaceAll pat rep t
termination_by s.length
decreasing_by
  · simp only [List.length_drop, List.length_cons]
    have hlen : 1 ≤ pat.length := by
      rcases pat with _ | ⟨p, ps⟩
      · exact absurd rfl h.1
      · simp
    omega
  · simp

/-- `replace_once(filename, to_find, replace_with)` on the file's lines: copy
lines until the first line containing `to_find`; write that line with
`line.replace(to_find, replace_with)` applied and `break`; then copy the rest
of the file verbatim. -/
def replace_once (to_find replace_with : List Char) : List (List Char) → List (List Char)
  | [] => []
  | l :: ls =>
    if containsSub to_find l then
      replaceAll to_find replace_with l :: ls
    else
      l :: replace_once to_find replace_with ls

/-- Modelled from the spec: replacement of only the first occurrence inside a
single line ("replace the first textual occurrence"), used to compare
`replace_once` with the specified first-occurrence-only semantics. -/
def replaceFirstIn (pat rep : List Char) : List Char → List Char
  | [] => []
  | c :: t =>
    if pat.isPrefixOf (c :: t) then rep ++ List.drop (pat.length - 1) t
    else c :: replaceFirstIn pat rep t

/-- Modelled from the spec: "replace the first textual occurrence of the
marker scanning top-to-bottom" — only the first occurrence in the first
containing line is replaced, everything after it is copied verbatim. -/
def replaceFirstOccFile (pat rep : List Char) : List (List Char) → List (List Char)
  | [] => []
  | l :: ls =>
    if containsSub pat l then replaceFirstIn pat rep l :: ls
    else l :: replaceFirstOccFile pat rep ls

/-! ### Facts about `replaceAll` and `replace_once` -/

theorem containsSub_cons (pat : List Char) (c : Char) (t : List Char) :
    containsSub pat (c :: t) = (pat.isPrefixOf (c :: t) || containsSub pat t) := rfl

theorem replaceAll_of_not_contains (pat rep : List Char) :
    ∀ (s : List Char), containsSub pat s = false → replaceAll pat rep s = s := by
  intro s
  induction s with
  | nil => intro _; simp [replaceAll]
  | cons c t ih =>
    intro h
    rw [containsSub_cons, Bool.or_eq_false_iff] at h
    unfold replaceAll
    rw [dif_neg (by simp [h.1])]
    rw [ih h.2]

theorem replace_once_of_not_contains (tf rw : List Char) :
    ∀ (lines : List (List Char)),
      (∀ l ∈ lines, containsSub tf l = false) →
      replace_once tf rw lines = lines := by
  intro lines
  induction lines with
  | nil => intro _; rfl
  | cons l ls ih =>
    intro h
    unfold replace_once
    rw [if_neg (by simp [h l (by simp)])]
    rw [ih (fun x hx => h x (by simp [hx]))]

theorem replaceAll_length_le (pat rep : List Char) (hlen : rep.length ≤ pat.length) :
    ∀ (s : List Char), (replaceAll pat rep s).length ≤ s.length := by
  intro s
  induction s using replaceAll.induct pat rep with
  | case1 => simp [replaceAll]
  | case2 c t h ih =>
    unfold replaceAll
    rw [dif_pos h]
    have hpat : pat.length ≤ (c :: t).length := List.IsPrefix.length_le
      (List.isPrefixOf_iff_prefix.mp h.2)
    simp only [List.length_append, List.length_cons, List.length_drop] at ih hpat ⊢
    omega
  | case3 c t h ih =>
    unfold replaceAll
    rw [dif_neg h]
    simp only [List.length_cons]
    omega

theorem replaceAll_length_lt (pat rep : List Char) (hne : pat ≠ [])
    (hlen : rep.length < pat.length) :
    ∀ (s : List Char), containsSub pat s = true →
      (replaceAll pat rep s).length < s.length := by
  intro s
  induction s using replaceAll.induct pat rep with
  | case1 => intro hc; simp [containsSub, List.isEmpty_iff, hne] at hc
  | case2 c t h _ =>
    intro _
    unfold replaceAll
    rw [dif_pos h]
    have hle := replaceAll_length_le pat rep (by omega) (List.drop pat.length (c :: t))
    have hpat : pat.length ≤ (c :: t).length := List.IsPrefix.length_le
      (List.isPrefixOf_iff_prefix.mp h.2)
    simp only [List.length_append, List.length_cons, List.length_drop] at hle hpat ⊢
    omega
  | case3 c t h ih =>
    intro hc
    have hpre : pat.isPrefixOf (c :: t) = false := by
      rcases hp : pat.isPrefixOf (c :: t) with _ | _
      · rfl
      · exact absurd ⟨hne, hp⟩ h
    rw [containsSub_cons, hpre, Bool.false_or] at hc
    unfold replaceAll
    rw [dif_neg h]
    simp only [List.length_cons]
    have := ih hc
    omega

theorem replaceAll_length_ge (pat rep : List Char) (hlen : pat.length ≤ rep.length) :
    ∀ (s : List Char), s.length ≤ (replaceAll pat rep s).length := by
  intro s
  induction s using replaceAll.induct pat rep with
  | case1 => simp [replaceAll]
  | case2 c t h ih =>
    unfold replaceAll
    rw [dif_pos h]
    have hpat : pat.length ≤ (c :: t).length := List.IsPrefix.length_le
      (List.isPrefixOf_iff_prefix.mp h.2)
    simp only [List.length_append, List.length_cons, List.length_drop] at ih hpat ⊢
    omega
  | case3 c t h ih =>
    unfold replaceAll
    rw [dif_neg h]
    simp only [List.length_cons]
    omega

theorem replaceAll_length_gt (pat rep : List Char) (hne : pat ≠ [])
    (hlen : pat.length < rep.length) :
    ∀ (s : List Char), containsSub pat s = true →
      s.length < (replaceAll pat rep s).length := by
  intro s
  induction s using replaceAll.induct pat rep with
  | case1 => intro hc; simp [containsSub, List.isEmpty_iff, hne] at hc
  | case2 c t h _ =>
    intro _
    unfold replaceAll
    rw [dif_pos h]
    have hge := replaceAll_length_ge pat rep (by omega) (List.drop pat.length (c :: t))
    have hpat : pat.length ≤ (c :: t).length := List.IsPrefix.length_le
      (List.isPrefixOf_iff_prefix.mp h.2)
    simp only [List.length_append, List.length_cons, List.length_drop] at hge hpat ⊢
    omega
  | case3 c t h ih =>
    intro hc
    have hpre : pat.isPrefixOf (c :: t) = false := by
      rcases hp : pat.isPrefixOf (c :: t) with _ | _
      · rfl
      · exact absurd ⟨hne, hp⟩ h
    rw [containsSub_cons, hpre, Bool.false_or] at hc
    unfold replaceAll
    rw [dif_neg h]
    simp only [List.length_cons]
    have := ih hc
    omega

theorem replaceAll_ne_of_eq_length (pat rep : List Char) (hne : pat ≠ [])
    (hdiff : rep ≠ pat) (hlen : rep.length = pat.length) :
    ∀ (s : List Char), containsSub pat s = true → replaceAll pat rep s ≠ s := by
  intro s
  induction s using replaceAll.induct pat rep with
  | case1 => intro hc; simp [containsSub, List.isEmpty_iff, hne] at hc
  | case2 c t h _ =>
    intro _
    unfold replaceAll
    rw [dif_pos h]
    intro heq
    rcases List.isPrefixOf_iff_prefix.mp h.2 with ⟨u, hu⟩
    have hdropu : List.drop pat.length (c :: t) = u := by
      rw [← hu, List.drop_left]
    rw [hdropu, ← hu] at heq
    exact hdiff (List.append_inj heq hlen).1
  | case3 c t h ih =>
    intro hc
    have hpre : pat.isPrefixOf (c :: t) = false := by
      rcases hp : pat.isPrefixOf (c :: t) with _ | _
      · rfl
      · exact absurd ⟨hne, hp⟩ h
    rw [containsSub_cons, hpre, Bool.false_or] at hc
    unfold replaceAll
    rw [dif_neg h]
    intro heq
    exact ih hc (List.cons.inj heq).2

/-- A line that contains a nonempty marker is really changed by
`line.replace(to_find, replace_with)` when the replacement differs. -/
theorem replaceAll_ne (pat rep : List Char) (hne : pat ≠ []) (hdiff : rep ≠ pat)
    (s : List Char) (hc : containsSub pat s = true) : replaceAll pat rep s ≠ s := by
  rcases lt_trichotomy rep.length pat.length with hl | hl | hl
  · intro heq
    have h1 := replaceAll_length_lt pat rep hne hl s hc
    rw [heq] at h1
    omega
  · exact replaceAll_ne_of_eq_length pat rep hne hdiff hl s hc
  · intro heq
    have h1 := replaceAll_length_gt pat rep hne hl s hc
    rw [heq] at h1
    omega

/-- Structure of `replace_once` on a file whose first marker-containing line
is `l`: everything before and after is copied verbatim, and `l` is written
with Python's replace-all-occurrences-in-the-line applied. -/
theorem replace_once_structure (tf rw : List Char) :
    ∀ (pre : List (List Char)) (l : List Char) (post : List (List Char)),
      (∀ x ∈ pre, containsSub tf x = false) →
      containsSub tf l = true →
      replace_once tf rw (pre ++ l :: post) = pre ++ replaceAll tf rw l :: post := by
  intro pre
  induction pre with
  | nil =>
    intro l post _ hl
    simp only [List.nil_append]
    unfold replace_once
    rw [if_pos hl]
  | cons x pre' ih =>
    intro l post hpre hl
    simp only [List.cons_append]
    unfold replace_once
    rw [if_neg (by simp [hpre x (by simp)])]
    rw [ih l post (fun y hy => hpre y (by simp [hy])) hl]

/-! ## The command-line surface (`__main__`, lines 225-231)

`argv` is modelled as the full Python `sys.argv` (script name first).
Accessing a missing index raises `IndexError`, which nobody catches: the
interpreter prints a traceback and exits with status 1, modelled as
`uncaughtIndexError`. An unrecognized first argument prints
`'%s not implemented' % argv[1]` and falls off the end of the script
(implicit exit status 0). -/

inductive CliOutcome where
  | runDaily (start_date_string output_filename : String)
  | runSingle (commit_hash : String)
  | notImplemented (arg : String)
  | uncaughtIndexError
  deriving DecidableEq, Repr

def cli_dispatch : List String → CliOutcome
  | _prog :: arg1 :: rest =>
    if arg1 = "daily_to_present" then
      match rest with
      | arg2 :: arg3 :: _ => .runDaily arg2 arg3
      | _ => .uncaughtIndexError
    else if arg1 = "single_commit" then
      match rest with
      | arg2 :: _ => .runSingle arg2
      | _ => .uncaughtIndexError
    else
      .notImplemented arg1
  | _ => .uncaughtIndexError

/-- Exit status of the dispatch itself: `some 0` for the not-implemented
fall-through, `some 1` for an uncaught `IndexError`; `none` when a subcommand
actually runs (its exit status depends on the run). -/
def cli_exit_code : CliOutcome → Option Nat
  | .notImplemented _ => some 0
  | .uncaughtIndexError => some 1
  | _ => none

/-- What the dispatch itself prints to stdout (a traceback goes to stderr,
and a running subcommand's output is not modelled here). -/
def cli_output : CliOutcome → List String
  | .notImplemented arg => [arg ++ " not implemented"]
  | _ => []

/-! ## The single-revision flow (`single_commit`, lines 177-222)

The observable behaviour is an effect trace.  `token` is
`os.environ.get('INFLUX_TOKEN')` (`none` when the variable is absent);
Python's `if not token` is true for both `None` and the empty string.
`resolved` is the outcome of `git show <hash> -s --format=%H` (`none` models a
nonzero exit, whose `check_returncode` exception aborts the trace), `bench`
the outcome of `benchmark_build` (`none` models any raising step inside it),
and `pingOk` the result of `client.ping()`. -/

inductive SCOp where
  | printOut (msg : String)
  | gitShow (commit_hash : String)
  | runBenchmark (commit_hash : String)
  | pingInflux
  | writeInflux (commit_hash : String)
  | procExit (code : Nat)
  deriving DecidableEq, Repr

def single_commit_ops (token : Option String) (commit_hash : String)
    (resolved : Option String) (bench : Option Unit) (pingOk : Bool) : List SCOp :=
  if token.getD "" = "" then
    [.printOut "env var INFLUX_TOKEN is missing", .procExit 1]
  else
    .gitShow commit_hash ::
      match resolved with
      | none => []
      | some full =>
        .runBenchmark full ::
          match bench with
          | none => []
          | some _ =>
            .pingInflux ::
              if pingOk then [.writeInflux full]
              else [.printOut "failed to connect to InfluxDB", .procExit 1]

/-! ## CSV output of `daily_to_present` (lines 137-174)

Dates are rendered like `datetime.utcfromtimestamp(ts).strftime('%Y-%m-%d')`:
the civil (proleptic Gregorian) date of day number `ts // 86400` since
1970-01-01, with zero-padded fields.  `civilFromDays` is the standard
days-to-civil-date conversion.  A measured duration is a rational number of
seconds; Python's `'%d' %% x` truncates a float toward zero (`qTrunc`). -/

def civilFromDays (z0 : Int) : Int × Int × Int :=
  let z := z0 + 719468
  let era := z / 146097
  let doe := z - era * 146097
  let yoe := (doe - doe / 1460 + doe / 36524 - doe / 146096) / 365
  let y := yoe + era * 400
  let doy := doe - (365 * yoe + yoe / 4 - yoe / 100)
  let mp := (5 * doy + 2) / 153
  let d := doy - (153 * mp + 2) / 5 + 1
  let m := mp + (if mp < 10 then 3 else -9)
  (y + (if m ≤ 2 then 1 else 0), m, d)

def pad2 (n : Int) : String :=
  if 0 ≤ n ∧ n < 10 then "0" ++ toString n else toString n

def pad4 (n : Int) : String :=
  if 0 ≤ n ∧ n < 10 then "000" ++ toString n
  else if 0 ≤ n ∧ n < 100 then "00" ++ toString n
  else if 0 ≤ n ∧ n < 1000 then "0" ++ toString n
  else toString n

def formatDateUTC (t : Int) : String :=
  let c := civilFromDays (t / 86400)
  pad4 c.1 ++ "-" ++ pad2 c.2.1 ++ "-" ++ pad2 c.2.2

/-- Python `'%d' % q`: truncation toward zero (`Int.tdiv` is T-division). -/
def qTrunc (q : Rat) : Int := q.num.tdiv (q.den : Int)

/-- The six wall-clock durations returned by `benchmark_build`, in the order
of the Python return tuple (lines 93-94). -/
structure BuildDurations where
  debug_build_duration : Rat
  debug_rebuild_duration : Rat
  release_build_duration : Rat
  release_rebuild_duration : Rat
  quick_build_duration : Rat
  quick_rebuild_duration : Rat
  deriving DecidableEq, Repr

/-- The header line written at line 138 (without the trailing newline; the
file is modelled as its list of lines). -/
def csv_header : String :=
  "date,hash,debug build,debug rebuild,release build,release rebuild,qr build,qr rebuild"

/-- One data row: `'%s,%s,%d,%d,%d,%d,%d,%d\n' % (commit_date, commit_hash, ...)`
at lines 168-172, with `commit_date = datetime.utcfromtimestamp(commit_time).strftime('%Y-%m-%d')`. -/
def csv_row (commit_time : Int) (commit_hash : String) (d : BuildDurations) : String :=
  formatDateUTC commit_time ++ "," ++ commit_hash ++ "," ++
    toString (qTrunc d.debug_build_duration) ++ "," ++
    toString (qTrunc d.debug_rebuild_duration) ++ "," ++
    toString (qTrunc d.release_build_duration) ++ "," ++
    toString (qTrunc d.release_rebuild_duration) ++ "," ++
    toString (qTrunc d.quick_build_duration) ++ "," ++
    toString (qTrunc d.quick_rebuild_duration)

/-- The benchmarking `for commit_time, commit_hash in reversed(to_benchmark)`
loop (lines 160-174) over an already-reversed sample list: `bench` abstracts
`benchmark_build` (`none` = some step raised).  Returns the CSV lines written
to the output file and the console log lines, both in order.  A failed
benchmark writes no CSV row, logs `failed to build <date> <hash>`, and the
loop continues with the next sample. -/
def bench_loop (bench : Int × String → Option BuildDurations) :
    List (Int × String) → List String × List String
  | [] => ([], [])
  | (commit_time, commit_hash) :: rest =>
    match bench (commit_time, commit_hash) with
    | some d =>
      (csv_row commit_time commit_hash d :: (bench_loop bench rest).1,
       ("benchmarking " ++ formatDateUTC commit_time ++ " " ++ commit_hash) ::
         ("benchmark build " ++ commit_hash) :: (bench_loop bench rest).2)
    | none =>
      ((bench_loop bench rest).1,
       ("benchmarking " ++ formatDateUTC commit_time ++ " " ++ commit_hash) ::
         ("benchmark build " ++ commit_hash) ::
         ("failed to build " ++ formatDateUTC commit_time ++ " " ++ commit_hash) ::
           (bench_loop bench rest).2)

/-- The whole output file of `daily_to_present` as a list of lines: header
first, then one row per successfully benchmarked sample, oldest first
(`reversed(to_benchmark)`).  `none` when the sampling loop itself dies. -/
def daily_to_present_file (bench : Int × String → Option BuildDurations)
    (start : Int) (hist : List (Int × String)) : Option (List String) :=
  (daily_samples start hist).map
    (fun samples => csv_header :: (bench_loop bench samples.reverse).1)

/-! ### Facts about the benchmarking loop -/

theorem bench_loop_rows (bench : Int × String → Option BuildDurations) :
    ∀ (samples : List (Int × String)),
      (bench_loop bench samples).1 =
        samples.filterMap (fun s => (bench s).map (fun d => csv_row s.1 s.2 d)) := by
  intro samples
  induction samples with
  | nil => rfl
  | cons s rest ih =>
    obtain ⟨t, h⟩ := s
    cases hb : bench (t, h) with
    | none => simp [bench_loop, List.filterMap_cons, hb, ih]
    | some d => simp [bench_loop, List.filterMap_cons, hb, ih]

theorem bench_loop_fail_mem (bench : Int × String → Option BuildDurations) :
    ∀ (samples : List (Int × String)) (s : Int × String),
      s ∈ samples → bench s = none →
      ("failed to build " ++ formatDateUTC s.1 ++ " " ++ s.2) ∈
        (bench_loop bench samples).2 := by
  intro samples
  induction samples with
  | nil => intro s hs; cases hs
  | cons e rest ih =>
    obtain ⟨t, h⟩ := e
    intro s hs hb
    rcases List.mem_cons.mp hs with rfl | hs'
    · simp [bench_loop, hb]
    · cases hb2 : bench (t, h) with
      | none => simp [bench_loop, hb2]; right; right; right; exact ih s hs' hb
      | some d => simp [bench_loop, hb2]; right; right; exact ih s hs' hb

/-! ## Claim C1 -/

/-- C1. For every start timestamp and strictly decreasing revision history,
thresholds at which samples are emitted are strictly decreasing, every emitted
sample's timestamp is less than the previous (more recent) boundary, and the
FIRST emitted sample's timestamp is at least its boundary.  (The claim's
stronger statement — every emitted sample's timestamp is at least the boundary
it was selected for — is refuted by `C1_counterexample`: when no revision falls
within a boundary's day, the sample emitted for it is older than the
boundary.) -/
theorem C1_sampler_boundaries_amended (start t0 : Int) (h0 : String)
    (rest : List (Int × String)) (out : List (Int × Int × String))
    (hchain : List.Chain' (fun a b => b < a) (histTimes ((t0, h0) :: rest)))
    (hout : daily_samples_inst start ((t0, h0) :: rest) = some out) :
    out.Pairwise (fun p q => q.1 < p.1) ∧
    List.Chain' (fun p q => q.2.1 < p.1) out ∧
    (∀ p l', out = p :: l' → p.1 ≤ p.2.1) := by
  have hloop : sampleLoopInst start t0 h0 (t0 - t0 % interval_in_seconds) rest = some out := hout
  have hchain' : List.Chain' (fun a b => b < a) (t0 :: histTimes rest) := by
    simpa [histTimes] using hchain
  refine ⟨(sampleLoop_thresholds start rest t0 h0 _ out hloop).2.1,
          (sampleLoop_times start rest t0 h0 _ out hchain' hloop).2.2, ?_⟩
  have hmod : 0 ≤ t0 % interval_in_seconds :=
    Int.emod_nonneg t0 (by norm_num [interval_in_seconds])
  exact sampleLoop_first_ge start rest t0 h0 _ out (by omega) hloop

def c1Hist : List (Int × String) :=
  [(18787 * 86400 + 100, "h3"), (18784 * 86400 + 50, "h2"),
   (18784 * 86400 + 40, "h1"), (0, "h0")]

def c1Out : List (Int × Int × String) :=
  [(18787 * 86400, 18787 * 86400 + 100, "h3"),
   (18786 * 86400, 18784 * 86400 + 50, "h2"),
   (18785 * 86400, 18784 * 86400 + 40, "h1")]

/-- C1, counterexample to the claim as stated: a strictly decreasing history
(Wed 2021-06-09, two commits on Sun 2021-06-06, epoch) where the sample
emitted for the Tuesday boundary `18786 * 86400` is the Sunday commit
`18784 * 86400 + 50`, which is older than that boundary — so "every emitted
sample's revision timestamp is ≥ the boundary it was selected for" fails. -/
theorem C1_counterexample :
    List.Chain' (fun a b => b < a) (histTimes c1Hist) ∧
    daily_samples_inst 1000 c1Hist = some c1Out ∧
    ¬ (∀ p ∈ c1Out, p.1 ≤ p.2.1) := by
  refine ⟨by norm_num [c1Hist, histTimes, List.chain'_cons, List.chain'_singleton], by decide, by decide⟩

def c1wHist : List (Int × String) :=
  [(1623196900, "a"), (1622937650, "b"), (1622700000, "c")]

def c1wOut : List (Int × Int × String) :=
  [(1623196800, 1623196900, "a"), (1623110400, 1622937650, "b")]

/-- C1, witness: the amended theorem applied to a concrete history. -/
theorem C1_sampler_boundaries_amended_witness :
    List.Chain' (fun a b => b < a) (histTimes ((1623196900, "a") :: [(1622937650, "b"), (1622700000, "c")])) ∧
    daily_samples_inst 1622751200 ((1623196900, "a") :: [(1622937650, "b"), (1622700000, "c")]) = some c1wOut ∧
    (c1wOut.Pairwise (fun p q => q.1 < p.1) ∧
     List.Chain' (fun p q => q.2.1 < p.1) c1wOut ∧
     (∀ p l', c1wOut = p :: l' → p.1 ≤ p.2.1)) :=
  ⟨by norm_num [histTimes, List.chain'_cons, List.chain'_singleton], by decide,
   C1_sampler_boundaries_amended 1622751200 1623196900 "a"
     [(1622937650, "b"), (1622700000, "c")] c1wOut
     (by norm_num [histTimes, List.chain'_cons, List.chain'_singleton]) (by decide)⟩

/-! ## Claim C2 -/

/-- C2 (amended). Every threshold at which the sampler emits a sample, EXCEPT
the first one, falls on a weekday (Monday..Friday, UTC); the first emitted
threshold is exactly the most recent revision's timestamp floored to the
86400-second interval and is NOT weekend-adjusted, so it can fall on a
Saturday or Sunday (refuted for the claim as stated by `C2_counterexample`). -/
theorem C2_weekday_thresholds_amended (start t0 : Int) (h0 : String)
    (rest : List (Int × String)) (out : List (Int × Int × String))
    (hout : daily_samples_inst start ((t0, h0) :: rest) = some out) :
    (∀ p ∈ out.drop 1, weekdayOf p.1 ≤ 4) ∧
    (∀ p l', out = p :: l' → p.1 = t0 - t0 % interval_in_seconds) := by
  have hloop : sampleLoopInst start t0 h0 (t0 - t0 % interval_in_seconds) rest = some out := hout
  obtain ⟨hle, hpw, hwd, hhead⟩ := sampleLoop_thresholds start rest t0 h0 _ out hloop
  constructor
  · cases out with
    | nil => intro p hp; cases hp
    | cons q tail =>
      intro p hp
      simp only [List.drop_one, List.tail_cons] at hp
      have hq : q.1 = t0 - t0 % interval_in_seconds := hhead q tail rfl
      rcases hwd p (by simp [hp]) with heq | h4
      · exfalso
        have := (List.pairwise_cons.mp hpw).1 p hp
        have hqle := hle q (by simp)
        omega
      · exact h4
  · exact hhead

def c2Hist : List (Int × String) :=
  [(1622854800, "h2"), (1622847600, "h1"), (1622751200, "h0")]

def c2Out : List (Int × Int × String) :=
  [(1622851200, 1622854800, "h2"), (1622764800, 1622847600, "h1")]

/-- C2, counterexample to the claim as stated: the most recent commit is on
Saturday 2021-06-05 01:00 UTC, so the initial threshold is Saturday midnight
`1622851200` (weekday 5), and a sample IS emitted for it — an emitted
threshold on a Saturday, contradicting "no threshold for which the sampler
emits a sample falls on a Saturday or Sunday; this includes the initial
threshold". -/
theorem C2_counterexample :
    List.Chain' (fun a b => b < a) (histTimes c2Hist) ∧
    daily_samples_inst 1622751200 c2Hist = some c2Out ∧
    (1622851200, 1622854800, "h2") ∈ c2Out ∧
    4 < weekdayOf 1622851200 := by
  refine ⟨by norm_num [c2Hist, histTimes, List.chain'_cons, List.chain'_singleton],
    by decide, by decide, by decide⟩

/-- C2, witness: the amended theorem applied to a concrete history whose
emitted tail thresholds (Tuesday `18786 * 86400` and Monday `18785 * 86400`)
are weekdays. -/
theorem C2_weekday_thresholds_amended_witness :
    daily_samples_inst 1000 ((18787 * 86400 + 100, "h3") ::
      [(18784 * 86400 + 50, "h2"), (18784 * 86400 + 40, "h1"), (0, "h0")]) = some c1Out ∧
    ((∀ p ∈ c1Out.drop 1, weekdayOf p.1 ≤ 4) ∧
     (∀ p l', c1Out = p :: l' →
        p.1 = (18787 * 86400 + 100 : Int) - (18787 * 86400 + 100 : Int) % interval_in_seconds)) :=
  ⟨by decide,
   C2_weekday_thresholds_amended 1000 (18787 * 86400 + 100) "h3"
     [(18784 * 86400 + 50, "h2"), (18784 * 86400 + 40, "h1"), (0, "h0")] c1Out (by decide)⟩

/-! ## Claim C3 -/

/-- C3 (amended). `replace_once` modifies exactly the first line (top-to-bottom)
that contains the marker and leaves every other line byte-identical, even when
the marker also occurs in later lines; but within that first line Python's
`line.replace(to_find, replace_with)` replaces EVERY occurrence, not only the
first (see `C3_counterexample`).  Stated for a nonempty marker and a
replacement different from the marker, as with the source's markers
`unreachable!` / `panic!`. -/
theorem C3_replace_once_amended (tf rw : List Char) (pre : List (List Char))
    (l : List Char) (post : List (List Char))
    (hne : tf ≠ []) (hdiff : rw ≠ tf)
    (hpre : ∀ x ∈ pre, containsSub tf x = false)
    (hl : containsSub tf l = true) :
    replace_once tf rw (pre ++ l :: post) = pre ++ replaceAll tf rw l :: post ∧
    replaceAll tf rw l ≠ l :=
  ⟨replace_once_structure tf rw pre l post hpre hl, replaceAll_ne tf rw hne hdiff l hl⟩

/-- C3, counterexample to "replaces only the first textual occurrence of the
marker": on the one-line file `a a` with marker `a` and replacement `b`,
`replace_once` yields `b b` (both occurrences in the line replaced), while the
spec's first-occurrence-only semantics (`replaceFirstOccFile`) yields `b a`. -/
theorem C3_counterexample :
    replace_once ['a'] ['b'] [['a', ' ', 'a']] = [['b', ' ', 'b']] ∧
    replaceFirstOccFile ['a'] ['b'] [['a', ' ', 'a']] = [['b', ' ', 'a']] ∧
    replace_once ['a'] ['b'] [['a', ' ', 'a']] ≠
      replaceFirstOccFile ['a'] ['b'] [['a', ' ', 'a']] := by
  have h1 : replace_once ['a'] ['b'] [['a', ' ', 'a']] = [['b', ' ', 'b']] := by
    simp [replace_once, containsSub, replaceAll, List.isPrefixOf, List.drop]
  have h2 : replaceFirstOccFile ['a'] ['b'] [['a', ' ', 'a']] = [['b', ' ', 'a']] := by
    simp [replaceFirstOccFile, containsSub, replaceFirstIn, List.isPrefixOf, List.drop]
  exact ⟨h1, h2, by rw [h1, h2]; decide⟩

/-- C3, witness: the amended theorem applied to a concrete three-line file
whose second line contains the marker `ab` and whose third line also does. -/
theorem C3_replace_once_amended_witness :
    (['a', 'b'] : List Char) ≠ [] ∧ (['c'] : List Char) ≠ ['a', 'b'] ∧
    (∀ x ∈ [['x']], containsSub ['a', 'b'] x = false) ∧
    containsSub ['a', 'b'] ['z', 'a', 'b'] = true ∧
    (replace_once ['a', 'b'] ['c'] ([['x']] ++ ['z', 'a', 'b'] :: [['a', 'b']]) =
       [['x']] ++ replaceAll ['a', 'b'] ['c'] ['z', 'a', 'b'] :: [['a', 'b']] ∧
     replaceAll ['a', 'b'] ['c'] ['z', 'a', 'b'] ≠ ['z', 'a', 'b']) :=
  ⟨by decide, by decide, by decide, by decide,
   C3_replace_once_amended ['a', 'b'] ['c'] [['x']] ['z', 'a', 'b'] [['a', 'b']]
     (by decide) (by decide) (by decide) (by decide)⟩

/-! ## Claim C4 -/

/-- C4. For every start timestamp and strictly decreasing revision history, a
successful sampling run emits at most one sample per boundary (the emitted
thresholds are pairwise strictly decreasing), collects samples most-recent
first internally (`to_benchmark` timestamps pairwise strictly decreasing), and
the reversed list handed to the benchmarking pass has strictly increasing
sample timestamps, oldest first. -/
theorem C4_sample_order (start : Int) (hist : List (Int × String))
    (out : List (Int × Int × String))
    (hchain : List.Chain' (fun a b => b < a) (histTimes hist))
    (hout : daily_samples_inst start hist = some out) :
    out.Pairwise (fun p q => q.1 < p.1) ∧
    out.Pairwise (fun p q => q.2.1 < p.2.1) ∧
    daily_samples start hist = some (out.map (fun p => (p.2.1, p.2.2))) ∧
    ((out.map (fun p => (p.2.1, p.2.2))).reverse).Pairwise (fun a b => a.1 < b.1) := by
  cases hist with
  | nil => simp [daily_samples_inst] at hout
  | cons e rest =>
    obtain ⟨t0, h0⟩ := e
    have hloop : sampleLoopInst start t0 h0 (t0 - t0 % interval_in_seconds) rest = some out :=
      hout
    have hchain' : List.Chain' (fun a b => b < a) (t0 :: histTimes rest) := by
      simpa [histTimes] using hchain
    have hth := (sampleLoop_thresholds start rest t0 h0 _ out hloop).2.1
    have htm := (sampleLoop_times start rest t0 h0 _ out hchain' hloop).2.1
    refine ⟨hth, htm, ?_, ?_⟩
    · unfold daily_samples
      rw [hout]
      rfl
    · rw [List.pairwise_reverse, List.pairwise_map]
      exact htm

def c4Hist : List (Int × String) :=
  [(1623196900, "x2"), (1623000000, "x1"), (1622700000, "x0")]

def c4Out : List (Int × Int × String) :=
  [(1623196800, 1623196900, "x2"), (1623110400, 1623000000, "x1")]

/-- C4, witness: the theorem applied to a concrete history. -/
theorem C4_sample_order_witness :
    List.Chain' (fun a b => b < a) (histTimes c4Hist) ∧
    daily_samples_inst 1622750000 c4Hist = some c4Out ∧
    (c4Out.Pairwise (fun p q => q.1 < p.1) ∧
     c4Out.Pairwise (fun p q => q.2.1 < p.2.1) ∧
     daily_samples 1622750000 c4Hist = some (c4Out.map (fun p => (p.2.1, p.2.2))) ∧
     ((c4Out.map (fun p => (p.2.1, p.2.2))).reverse).Pairwise (fun a b => a.1 < b.1)) :=
  ⟨by norm_num [c4Hist, histTimes, List.chain'_cons, List.chain'_singleton], by decide,
   C4_sample_order 1622750000 c4Hist c4Out
     (by norm_num [c4Hist, histTimes, List.chain'_cons, List.chain'_singleton]) (by decide)⟩

/-! ## Claim C5 -/

theorem mem_of_getLast?_eq {l : List Int} {a : Int} (h : l.getLast? = some a) : a ∈ l := by
  rcases List.mem_getLast?_eq_getLast (Option.mem_def.mpr h) with ⟨hne, rfl⟩
  exact List.getLast_mem hne

/-- C5. The sampler initializes the threshold to the most recent revision's
timestamp floored to the 86400-second interval (every emitted list's head
threshold equals `t0 - t0 % interval_in_seconds`), and it stops iterating the
revision stream as soon as the tracked revision's timestamp is ≤ the start
timestamp: if the strictly decreasing history's earliest entry has timestamp
exactly the start timestamp, iteration terminates successfully, without
emitting a sample for any threshold older than (≤) that entry, and anything
appended to the stream after that entry is never consumed. -/
theorem C5_init_and_termination (start t0 : Int) (h0 : String)
    (rest : List (Int × String))
    (hchain : List.Chain' (fun a b => b < a) (histTimes ((t0, h0) :: rest)))
    (hlast : (histTimes ((t0, h0) :: rest)).getLast? = some start) :
    ∃ out, daily_samples_inst start ((t0, h0) :: rest) = some out ∧
      (∀ p ∈ out, start < p.1) ∧
      (∀ p l', out = p :: l' → p.1 = t0 - t0 % interval_in_seconds) ∧
      (∀ junk, daily_samples_inst start (((t0, h0) :: rest) ++ junk) = some out) := by
  have hall : ∀ x ∈ histTimes ((t0, h0) :: rest), start ≤ x :=
    chain_ge_last _ start hchain hlast
  have hmem : start ∈ histTimes ((t0, h0) :: rest) := mem_of_getLast?_eq hlast
  have hex : ∃ t ∈ t0 :: histTimes rest, t ≤ start :=
    ⟨start, by simpa [histTimes] using hmem, le_refl start⟩
  obtain ⟨out, hout⟩ :=
    sampleLoop_total start rest t0 h0 (t0 - t0 % interval_in_seconds) hex
  refine ⟨out, hout, ?_, sampleLoop_first_th start rest t0 h0 _ out hout, ?_⟩
  · refine sampleLoop_gt_start start rest t0 h0 _ out ?_ hout
    intro t ht
    exact hall t (by simp [histTimes] at ht ⊢; exact Or.inr ht)
  · intro junk
    have hrw : daily_samples_inst start (((t0, h0) :: rest) ++ junk) =
        sampleLoopInst start t0 h0 (t0 - t0 % interval_in_seconds) (rest ++ junk) := by
      simp only [List.cons_append]
      rfl
    rw [hrw, sampleLoop_suffix start rest junk t0 h0 _ hex, hout]

def c5Hist : List (Int × String) :=
  [(1623196900, "a"), (1622937650, "b"), (1622751200, "c")]

def c5Out : List (Int × Int × String) :=
  [(1623196800, 1623196900, "a"), (1623110400, 1622937650, "b")]

/-- C5, witness: the theorem applied to a concrete history whose earliest
entry's timestamp equals the start timestamp. -/
theorem C5_init_and_termination_witness :
    List.Chain' (fun a b => b < a) (histTimes ((1623196900, "a") :: [(1622937650, "b"), (1622751200, "c")])) ∧
    (histTimes ((1623196900, "a") :: [(1622937650, "b"), (1622751200, "c")])).getLast? = some 1622751200 ∧
    (∃ out, daily_samples_inst 1622751200 ((1623196900, "a") :: [(1622937650, "b"), (1622751200, "c")]) = some out ∧
      (∀ p ∈ out, 1622751200 < p.1) ∧
      (∀ p l', out = p :: l' → p.1 = (1623196900 : Int) - (1623196900 : Int) % interval_in_seconds) ∧
      (∀ junk, daily_samples_inst 1622751200 (((1623196900, "a") :: [(1622937650, "b"), (1622751200, "c")]) ++ junk) = some out)) :=
  ⟨by norm_num [histTimes, List.chain'_cons, List.chain'_singleton], by decide,
   C5_init_and_termination 1622751200 1623196900 "a" [(1622937650, "b"), (1622751200, "c")]
     (by norm_num [histTimes, List.chain'_cons, List.chain'_singleton]) (by decide)⟩

/-! ## Claim C6 -/

/-- C6 (amended). When a first command-line argument is present and is neither
`daily_to_present` nor `single_commit`, the program prints
`<arg> not implemented` and exits with status 0.  When no subcommand argument
is present at all, however, `argv[1]` raises an uncaught `IndexError`: the
interpreter exits with status 1 and no "not implemented" message is printed
(see `C6_counterexample`), contrary to the claim as stated. -/
theorem C6_cli_amended (prog arg1 : String) (rest : List String)
    (h1 : arg1 ≠ "daily_to_present") (h2 : arg1 ≠ "single_commit") :
    cli_dispatch (prog :: arg1 :: rest) = CliOutcome.notImplemented arg1 ∧
    cli_exit_code (cli_dispatch (prog :: arg1 :: rest)) = some 0 ∧
    cli_output (cli_dispatch (prog :: arg1 :: rest)) = [arg1 ++ " not implemented"] := by
  have hd : cli_dispatch (prog :: arg1 :: rest) = CliOutcome.notImplemented arg1 := by
    simp [cli_dispatch, h1, h2]
  exact ⟨hd, by rw [hd]; rfl, by rw [hd]; rfl⟩

/-- C6, counterexample to the claim's missing-argument half: invoked with no
subcommand argument at all, the dispatch hits an uncaught `IndexError` — exit
status 1, not 0, and nothing is printed to stdout. -/
theorem C6_counterexample :
    cli_dispatch ["build_bench.py"] = CliOutcome.uncaughtIndexError ∧
    cli_exit_code CliOutcome.uncaughtIndexError = some 1 ∧
    cli_exit_code CliOutcome.uncaughtIndexError ≠ some 0 ∧
    cli_output CliOutcome.uncaughtIndexError = [] := by decide

/-- C6, witness: the amended theorem applied to the unrecognized subcommand
`weekly`. -/
theorem C6_cli_amended_witness :
    ("weekly" : String) ≠ "daily_to_present" ∧ ("weekly" : String) ≠ "single_commit" ∧
    (cli_dispatch ["build_bench.py", "weekly"] = CliOutcome.notImplemented "weekly" ∧
     cli_exit_code (cli_dispatch ["build_bench.py", "weekly"]) = some 0 ∧
     cli_output (cli_dispatch ["build_bench.py", "weekly"]) = ["weekly" ++ " not implemented"]) :=
  ⟨by decide, by decide,
   C6_cli_amended "build_bench.py" "weekly" [] (by decide) (by decide)⟩

/-! ## Claim C7 -/

/-- C7. In single-revision mode, if `INFLUX_TOKEN` is absent or empty the
process prints the specific missing-variable message and exits with status 1,
and the trace contains no version-control command, no benchmark, and no
network health check — the failure happens before any other operation. -/
theorem C7_missing_token (token : Option String) (commit_hash : String)
    (resolved : Option String) (bench : Option Unit) (pingOk : Bool)
    (htok : token = none ∨ token = some "") :
    single_commit_ops token commit_hash resolved bench pingOk =
      [SCOp.printOut "env var INFLUX_TOKEN is missing", SCOp.procExit 1] ∧
    (∀ h, SCOp.gitShow h ∉ single_commit_ops token commit_hash resolved bench pingOk) ∧
    (∀ h, SCOp.runBenchmark h ∉ single_commit_ops token commit_hash resolved bench pingOk) ∧
    SCOp.pingInflux ∉ single_commit_ops token commit_hash resolved bench pingOk ∧
    (∀ h, SCOp.writeInflux h ∉ single_commit_ops token commit_hash resolved bench pingOk) := by
  have hge : token.getD "" = "" := by rcases htok with rfl | rfl <;> rfl
  have heq : single_commit_ops token commit_hash resolved bench pingOk =
      [SCOp.printOut "env var INFLUX_TOKEN is missing", SCOp.procExit 1] := by
    unfold single_commit_ops
    rw [if_pos hge]
  refine ⟨heq, fun h => ?_, fun h => ?_, ?_, fun h => ?_⟩ <;> rw [heq] <;> simp

/-- C7, witness: the theorem applied to an absent token. -/
theorem C7_missing_token_witness :
    ((none : Option String) = none ∨ (none : Option String) = some "") ∧
    (single_commit_ops none "abc" (some "full") (some ()) true =
       [SCOp.printOut "env var INFLUX_TOKEN is missing", SCOp.procExit 1] ∧
     (∀ h, SCOp.gitShow h ∉ single_commit_ops none "abc" (some "full") (some ()) true) ∧
     (∀ h, SCOp.runBenchmark h ∉ single_commit_ops none "abc" (some "full") (some ()) true) ∧
     SCOp.pingInflux ∉ single_commit_ops none "abc" (some "full") (some ()) true ∧
     (∀ h, SCOp.writeInflux h ∉ single_commit_ops none "abc" (some "full") (some ()) true)) :=
  ⟨Or.inl rfl, C7_missing_token none "abc" (some "full") (some ()) true (Or.inl rfl)⟩

/-! ## Claim C8 -/

/-- C8. In batch mode, for every sample list and every benchmark outcome
function, the CSV rows written are exactly the rows of the successfully
benchmarked samples in order (a raising benchmark writes no row and does not
abort the iteration — later successes still produce their rows), and every
failing sample gets a `failed to build <date> <hash>` log line. -/
theorem C8_batch_failure_skip (bench : Int × String → Option BuildDurations)
    (samples : List (Int × String)) :
    (bench_loop bench samples).1 =
      samples.filterMap (fun s => (bench s).map (fun d => csv_row s.1 s.2 d)) ∧
    (∀ s ∈ samples, bench s = none →
      ("failed to build " ++ formatDateUTC s.1 ++ " " ++ s.2) ∈
        (bench_loop bench samples).2) :=
  ⟨bench_loop_rows bench samples, fun s hs hb => bench_loop_fail_mem bench samples s hs hb⟩

def c8d : BuildDurations :=
  ⟨⟨127, 10, by decide, by decide⟩, ⟨3, 2, by decide, by decide⟩, 100, 50,
   ⟨7, 3, by decide, by decide⟩, ⟨1, 4, by decide, by decide⟩⟩

def c8bench (s : Int × String) : Option BuildDurations :=
  if s.2 = "bad" then none else some c8d

def c8samples : List (Int × String) := [(1622847600, "bad"), (1622854800, "h2")]

/-- C8, witness: the theorem applied to a concrete sample list whose first
sample fails to benchmark. -/
theorem C8_batch_failure_skip_witness :
    (bench_loop c8bench c8samples).1 =
      c8samples.filterMap (fun s => (c8bench s).map (fun d => csv_row s.1 s.2 d)) ∧
    (1622847600, "bad") ∈ c8samples ∧
    c8bench (1622847600, "bad") = none ∧
    ("failed to build " ++ formatDateUTC 1622847600 ++ " " ++ "bad") ∈
      (bench_loop c8bench c8samples).2 :=
  ⟨(C8_batch_failure_skip c8bench c8samples).1, by decide, by decide,
   (C8_batch_failure_skip c8bench c8samples).2 (1622847600, "bad") (by decide) (by decide)⟩

/-! ## Claim C9 -/

/-- C9. Batch mode writes to the output file exactly the header line followed
by one comma-separated row per successfully benchmarked sample, oldest first,
each row being `csv_row`: the `YYYY-MM-DD` UTC date of the sample's commit
timestamp, the hash, then the six durations truncated to integer seconds in
the order debug build, debug rebuild, release build, release rebuild,
quick-release build, quick-release rebuild — matching the header columns. -/
theorem C9_csv_format (bench : Int × String → Option BuildDurations)
    (start : Int) (hist : List (Int × String)) (samples : List (Int × String))
    (hs : daily_samples start hist = some samples) :
    daily_to_present_file bench start hist =
      some (csv_header ::
        samples.reverse.filterMap (fun s => (bench s).map (fun d => csv_row s.1 s.2 d))) := by
  unfold daily_to_present_file
  rw [hs]
  simp only [Option.map_some']
  rw [bench_loop_rows]

def c9Hist : List (Int × String) :=
  [(1622854800, "h2"), (1622847600, "h1"), (1622751200, "h0")]

def c9bench (s : Int × String) : Option BuildDurations :=
  if s.2 = "h1" then none
  else some ⟨⟨127, 10, by decide, by decide⟩, ⟨3, 2, by decide, by decide⟩, 100, 50,
             ⟨7, 3, by decide, by decide⟩, ⟨1, 4, by decide, by decide⟩⟩

/-- C9, witness: the theorem applied to a concrete run — the sampler emits two
samples, the older one fails to benchmark, and the file is exactly the header
plus the one successful row, with the date rendered `2021-06-05` and the
durations 12.7, 1.5, 100, 50, 7/3, 0.25 truncated to 12, 1, 100, 50, 2, 0. -/
theorem C9_csv_format_witness :
    daily_samples 1622751200 c9Hist = some [(1622854800, "h2"), (1622847600, "h1")] ∧
    daily_to_present_file c9bench 1622751200 c9Hist =
      some ["date,hash,debug build,debug rebuild,release build,release rebuild,qr build,qr rebuild",
            "2021-06-05,h2,12,1,100,50,2,0"] := by
  have hs : daily_samples 1622751200 c9Hist =
      some [(1622854800, "h2"), (1622847600, "h1")] := by decide
  refine ⟨hs, ?_⟩
  rw [C9_csv_format c9bench 1622751200 c9Hist _ hs]
  decide

/-! ## Claim C10 -/

/-- C10. `replace_once` is the identity on files none of whose lines contains
the search marker: the file is rewritten with byte-identical content. -/
theorem C10_replace_once_identity (tf rw : List Char) (lines : List (List Char))
    (h : ∀ l ∈ lines, containsSub tf l = false) :
    replace_once tf rw lines = lines :=
  replace_once_of_not_contains tf rw lines h

/-- C10, witness: the theorem applied to a concrete marker-free file. -/
theorem C10_replace_once_identity_witness :
    (∀ l ∈ [['x', 'y'], ['z']], containsSub ['a'] l = false) ∧
    replace_once ['a'] ['b'] [['x', 'y'], ['z']] = [['x', 'y'], ['z']] :=
  ⟨by decide, C10_replace_once_identity ['a'] ['b'] [['x', 'y'], ['z']] (by decide)⟩
